import Mathlib

/-!
Verification development for the gbam columnar BAM toolkit
(`src/gbam_tools/src/{record.rs, writer.rs, query/depth.rs}`).

The development is a shallow embedding: Rust functions become Lean
functions over `Nat`/`Int`/`List`, Rust panics become `Except.error`,
and `i32`/`u32` arithmetic that can wrap is modelled with an explicit
`% 2^32` (`wrap32` for signed 32-bit values).
-/

namespace GbamSpec

/-! ## Depth-query model (`src/gbam_tools/src/query/depth.rs`) -/

/-- Signed 32-bit wrapping normalisation: the unique representative of
`x` modulo `2^32` in `[-2^31, 2^31)`.  Models Rust `i32` wrapping
arithmetic. -/
def wrap32 (x : Int) : Int := (x + 2 ^ 31) % 2 ^ 32 - 2 ^ 31

/-- Per-block metadata as stored in the footer (`meta.rs`, used by both
`writer.rs` and `depth.rs`): absolute seek position, item count and the
optional min/max statistics.  The statistics value type is a parameter:
the depth engine compares `RefID` statistics as integers while the
writer stores raw byte strings. -/
structure BlockMeta (α : Type) where
  seekpos : Nat
  numitems : Nat
  min_value : Option α
  max_value : Option α
deriving DecidableEq, Repr

/-- The `stats` view used by `depth.rs` (`meta_block.stats.as_ref()`):
present only when both bounds are present. -/
structure BlockStats where
  min_value : Int
  max_value : Int
deriving DecidableEq, Repr

/-- Accessor corresponding to `block_meta.stats` in `depth.rs`. -/
def statsOf (m : BlockMeta Int) : Option BlockStats :=
  match m.min_value, m.max_value with
  | some a, some b => some ⟨a, b⟩
  | _, _ => none

/-- The loop of `find_leftmost_block` (depth.rs:456-466): binary search
on `max_value` with `left` starting at `-1` and `right` at `len + 1`.
`Except.error` models the Rust panics (out-of-bounds indexing, and
`stats.as_ref().unwrap()` on absent statistics). -/
def flbLoop (metas : List (BlockMeta Int)) (id : Int) (left right : Int) :
    Except String Int :=
  if h : 1 < right - left then
    let mid := (left + right) / 2
    if hm : 0 ≤ mid ∧ mid.toNat < metas.length then
      match statsOf (metas.get ⟨mid.toNat, hm.2⟩) with
      | none => .error "stats absent"
      | some st =>
        if id ≤ st.max_value then flbLoop metas id left mid
        else flbLoop metas id mid right
    else .error "index out of bounds"
  else .ok right
termination_by (right - left).toNat
decreasing_by
  all_goals omega

/-- `find_leftmost_block` (depth.rs:456-471): after the loop, inspect
`block_metas[right]`; if its `min_value > id` the reference is reported
absent (`None`), else `Some right`. -/
def find_leftmost_block (id : Int) (metas : List (BlockMeta Int)) :
    Except String (Option Int) :=
  match flbLoop metas id (-1) (metas.length + 1) with
  | .error e => .error e
  | .ok r =>
    if hr : 0 ≤ r ∧ r.toNat < metas.length then
      match statsOf (metas.get ⟨r.toNat, hr.2⟩) with
      | none => .error "stats absent"
      | some st => if id < st.min_value then .ok none else .ok (some r)
    else .error "index out of bounds"

/-- The loop of `find_rightmost_block` (depth.rs:473-485): binary search
on `min_value`, `right` starting at `len`. -/
def frbLoop (metas : List (BlockMeta Int)) (id : Int) (left right : Int) :
    Except String Int :=
  if h : 1 < right - left then
    let mid := (left + right) / 2
    if hm : 0 ≤ mid ∧ mid.toNat < metas.length then
      match statsOf (metas.get ⟨mid.toNat, hm.2⟩) with
      | none => .error "stats absent"
      | some st =>
        if st.min_value ≤ id then frbLoop metas id mid right
        else frbLoop metas id left mid
    else .error "index out of bounds"
  else .ok right
termination_by (right - left).toNat
decreasing_by
  all_goals omega

/-- `find_rightmost_block` (depth.rs:473-485): returns the final `right`,
which is one past the rightmost block whose `min_value ≤ id`. -/
def find_rightmost_block (id : Int) (metas : List (BlockMeta Int)) :
    Except String Int :=
  frbLoop metas id (-1) metas.length

/-- The view of one record that the depth path materialises
(`ParsingTemplate::new_with(&[RefID, Pos, RawCigar])`): reference id,
position, and the CIGAR's reference-consumed base coverage. -/
structure GRecord where
  refid : Int
  pos : Int
  baseCov : Nat
deriving DecidableEq, Repr

/-- The loop body of `process_range` (depth.rs:37-54) applied to an
explicit list of record indices (the Rust iterates
`rec_range : RangeInclusive<usize>`).  `records` stands for the file
contents served by `Reader::fill_record`; an index past the end of the
file is the reader's out-of-range panic.  For every matching record the
sweep increments `scan_line[pos]` and decrements
`scan_line[pos + base_coverage]`, with `i32` wrapping arithmetic;
an out-of-bounds index is the Rust indexing panic. -/
def processIdxs (records : List GRecord) (target : Int) :
    List Nat → List Int → Except String (List Int)
  | [], scan => .ok scan
  | i :: rest, scan =>
    match records.get? i with
    | none => .error "fill_record: index out of bounds"
    | some r =>
      if r.refid ≠ target then processIdxs records target rest scan
      else if r.pos < 0 then .error "pos try_into usize failed"
      else
        let s := r.pos.toNat
        let e := s + r.baseCov
        if s < scan.length then
          let scan1 := scan.set s (wrap32 (scan.getD s 0 + 1))
          if e < scan1.length then
            processIdxs records target rest
              (scan1.set e (wrap32 (scan1.getD e 0 - 1)))
          else .error "scan_line index out of bounds"
        else .error "scan_line index out of bounds"

/-- The in-place prefix sum at the end of `calc_depth` (depth.rs:76-80):
`acc += *slot; *slot = acc;` with `i32` wrapping arithmetic. -/
def prefixSumWrap (acc : Int) : List Int → List Int
  | [] => []
  | x :: xs => wrap32 (acc + x) :: prefixSumWrap (wrap32 (acc + x)) xs

/-- The record-range selection of `calc_depth` (depth.rs:56-60):
`lower_bound` from `find_leftmost_block` (panicking via `.expect` when
it yields `None`), `upper_bound` from `find_rightmost_block`,
`first_rec = lower_bound * B`, `last_rec = min(upper_bound * B, n - 1)`
with `B = view_blocks(RefID)[0].numitems`; the pair is the *inclusive*
bounds of the scanned range `first_rec..=last_rec`.  A file with zero
records underflows `number_of_records - 1` (a `usize` panic in debug
builds). -/
def calcDepthRange (metas : List (BlockMeta Int)) (refId : Int) (n : Nat) :
    Except String (Nat × Nat) :=
  match find_leftmost_block refId metas with
  | .error e => .error e
  | .ok none => .error "RefID was not found in block meta."
  | .ok (some lb) =>
    match find_rightmost_block refId metas with
    | .error e => .error e
    | .ok ub =>
      match metas.head? with
      | none => .error "index out of bounds"
      | some m0 =>
        if n = 0 then .error "number_of_records - 1 underflow"
        else .ok (lb.toNat * m0.numitems, min (ub.toNat * m0.numitems) (n - 1))

/-- `calc_depth` (depth.rs:56-82): select the record range, run the
sweep over a zeroed coverage vector of length `ref_len`
(`coverage_arr.resize(ref_len, 0)` on a cleared pooled buffer), then
prefix-sum in place. -/
def calcDepthModel (records : List GRecord) (metas : List (BlockMeta Int))
    (n : Nat) (refId : Int) (refLen : Nat) : Except String (List Int) :=
  match calcDepthRange metas refId n with
  | .error e => .error e
  | .ok (first, last) =>
    match processIdxs records refId (List.range' first (last + 1 - first))
        (List.replicate refLen 0) with
    | .error e => .error e
    | .ok scan => .ok (prefixSumWrap 0 scan)

/-- `get_chr_name_mapping` (depth.rs:198-215): reference names are
inserted into a `HashMap` with their enumeration index, so a duplicated
name ends up mapped to its *last* index. -/
def lookupLastIdx (refSeqs : List (String × Nat)) (chr : String) : Option Nat :=
  (refSeqs.enum.reverse.find? (fun p => p.2.1 = chr)).map (·.1)

/-- The printing loop body of `main_depth` (depth.rs:144-150) for one
list of coordinates: index the coverage array (panicking when the
requested coordinate is outside the reference) and emit a row whenever
the coverage is strictly positive. -/
def emitCoords (chr : String) (cov : List Int) :
    List Nat → Except String (List (String × Nat × Int))
  | [] => .ok []
  | c :: rest =>
    match cov.get? c with
    | none => .error "coverage_arr index out of bounds"
    | some v =>
      match emitCoords chr cov rest with
      | .error e => .error e
      | .ok tl => .ok (if 0 < v then (chr, c, v) :: tl else tl)

/-- Rows for the query regions of one reference, regions in query
order, coordinates ascending (`for coord in bed_region.0..=bed_region.1`). -/
def emitRegions (chr : String) (cov : List Int) :
    List (Nat × Nat) → Except String (List (String × Nat × Int))
  | [] => .ok []
  | (a, b) :: rest =>
    match emitCoords chr cov (List.range' a (b + 1 - a)) with
    | .error e => .error e
    | .ok here =>
      match emitRegions chr cov rest with
      | .error e => .error e
      | .ok tl => .ok (here ++ tl)

/-- The per-reference loop of `main_depth` (depth.rs:125-180), in the
stable output order the ring of workers preserves (references in
`ref_seqs` order): compute the coverage for each reference and print
the rows of the references that occur in the query set. -/
def depthRowsGo (records : List GRecord) (metas : List (BlockMeta Int))
    (n : Nat) (refSeqs : List (String × Nat))
    (queries : List (String × List (Nat × Nat))) :
    List (String × Nat) → Except String (List (String × Nat × Int))
  | [] => .ok []
  | (chr, len) :: rest =>
    match lookupLastIdx refSeqs chr with
    | none => .error "chr_to_ref_id unwrap failed"
    | some refId =>
      match calcDepthModel records metas n (refId : Int) len with
      | .error e => .error e
      | .ok cov =>
        match (match queries.lookup chr with
               | some regions => emitRegions chr cov regions
               | none => .ok []) with
        | .error e => .error e
        | .ok here =>
          match depthRowsGo records metas n refSeqs queries rest with
          | .error e => .error e
          | .ok tl => .ok (here ++ tl)

/-- `main_depth` (depth.rs:84-187): parse/receive the query set, bind
`qual_cutoff = mapq.unwrap_or(0)` (never used afterwards), default the
query set to full references when empty, and emit the depth rows.
`records`, `metas`, `refSeqs` and `n` stand for the data the reader
serves from the file. -/
def mainDepthRows (records : List GRecord) (metas : List (BlockMeta Int))
    (refSeqs : List (String × Nat))
    (queries0 : List (String × List (Nat × Nat))) (mapq : Option Nat)
    (n : Nat) : Except String (List (String × Nat × Int)) :=
  let _qual_cutoff := mapq.getD 0
  let queries := if queries0.isEmpty
    then refSeqs.map (fun p => (p.1, [(0, p.2 - 1)]))
    else queries0
  depthRowsGo records metas n refSeqs queries refSeqs

/-- Does record index `i` match `target` and cover position `p`?
(`s_i ≤ p < e_i` with `s_i = pos` and `e_i = pos + base_coverage`.) -/
def coversAt (records : List GRecord) (target : Int) (p : Nat) (i : Nat) : Bool :=
  match records.get? i with
  | some r => decide (r.refid = target ∧ 0 ≤ r.pos ∧ r.pos.toNat ≤ p ∧
      p < r.pos.toNat + r.baseCov)
  | none => false

/-- Number of scanned record indices whose read covers position `p`. -/
def coverCount (records : List GRecord) (target : Int) (idxs : List Nat)
    (p : Nat) : Nat :=
  (idxs.filter (coversAt records target p)).length

/-- Does record index `i` match `target` and start at or before `p`? -/
def startedLE (records : List GRecord) (target : Int) (p : Nat) (i : Nat) : Bool :=
  match records.get? i with
  | some r => decide (r.refid = target ∧ 0 ≤ r.pos ∧ r.pos.toNat ≤ p)
  | none => false

/-- Does record index `i` match `target` and end at or before `p`? -/
def endedLE (records : List GRecord) (target : Int) (p : Nat) (i : Nat) : Bool :=
  match records.get? i with
  | some r => decide (r.refid = target ∧ 0 ≤ r.pos ∧
      r.pos.toNat + r.baseCov ≤ p)
  | none => false

/-! ## Writer model (`src/gbam_tools/src/writer.rs`, record accessors
from `src/gbam_tools/src/record.rs`) -/

/-- Modelled from the spec: the soft block size limit `SIZE_LIMIT`, a
crate-level constant whose definition is not among the sources; the
spec (SS3) gives "~64 KiB is typical". -/
def SIZE_LIMIT : Nat := 65536

def U32_SIZE : Nat := 4

/-- The field catalog.  Modelled from the spec (SS3, SS4.1; the `Fields`
enum lives in the external `bam_tools` crate): the eleven fixed-width
and five variable-width data-bearing fields of a BAM record, plus the
companion 4-byte index field of each variable field. -/
inductive Fields
  | RefID | Pos | LName | Mapq | Bin | NCigar | Flags | SequenceLength
  | NextRefID | NextPos | TemplateLength
  | ReadName | RawCigar | RawSequence | RawQual | RawTags
  | ReadNameIndex | RawCigarIndex | RawSequenceIndex | RawQualIndex
  | RawTagsIndex
deriving DecidableEq, Repr

/-- All fields, in `Fields::iterator()` order (data fields in catalog
order, index fields last). -/
def allFields : List Fields :=
  [.RefID, .Pos, .LName, .Mapq, .Bin, .NCigar, .Flags, .SequenceLength,
   .NextRefID, .NextPos, .TemplateLength, .ReadName, .RawCigar,
   .RawSequence, .RawQual, .RawTags, .ReadNameIndex, .RawCigarIndex,
   .RawSequenceIndex, .RawQualIndex, .RawTagsIndex]

/-- Byte widths of the fixed-width fields (the slice widths of
`record.rs::get_bytes`); index fields are `U32_SIZE` wide. -/
def fieldWidth : Fields → Nat
  | .RefID => 4 | .Pos => 4 | .LName => 1 | .Mapq => 1 | .Bin => 2
  | .NCigar => 2 | .Flags => 2 | .SequenceLength => 4 | .NextRefID => 4
  | .NextPos => 4 | .TemplateLength => 4
  | _ => U32_SIZE

def fixedDataFields : List Fields :=
  [.RefID, .Pos, .LName, .Mapq, .Bin, .NCigar, .Flags, .SequenceLength,
   .NextRefID, .NextPos, .TemplateLength]

def varDataFields : List Fields :=
  [.ReadName, .RawCigar, .RawSequence, .RawQual, .RawTags]

/-- Byte of a raw record (a record is its byte sequence,
`record.rs::RawRecord`). -/
def byteAt (r : List Nat) (i : Nat) : Nat := r.getD i 0

/-- `l_read_name`: the byte at offset 8. -/
def lReadName (r : List Nat) : Nat := byteAt r 8

/-- `n_cigar_op`: little-endian `u16` at offset 12. -/
def nCigarOp (r : List Nat) : Nat := byteAt r 12 + 256 * byteAt r 13

/-- `l_seq`: little-endian `u32` at offset 16. -/
def lSeq (r : List Nat) : Nat :=
  byteAt r 16 + 2 ^ 8 * byteAt r 17 + 2 ^ 16 * byteAt r 18 +
    2 ^ 24 * byteAt r 19

/-- `get_slice(offset, len)` — a byte view of the record. -/
def getSlice (r : List Nat) (off len : Nat) : List Nat := (r.drop off).take len

/-- `record.rs::get_bytes`: the byte view of each data-bearing field,
with the variable-field offsets chained from the header-derived
lengths.  Index fields are never requested from the accessor. -/
def getBytes (r : List Nat) : Fields → List Nat
  | .RefID => getSlice r 0 4
  | .Pos => getSlice r 4 4
  | .LName => getSlice r 8 1
  | .Mapq => getSlice r 9 1
  | .Bin => getSlice r 10 2
  | .NCigar => getSlice r 12 2
  | .Flags => getSlice r 14 2
  | .SequenceLength => getSlice r 16 4
  | .NextRefID => getSlice r 20 4
  | .NextPos => getSlice r 24 4
  | .TemplateLength => getSlice r 28 4
  | .ReadName => getSlice r 32 (lReadName r)
  | .RawCigar => getSlice r (32 + lReadName r) (U32_SIZE * nCigarOp r)
  | .RawSequence =>
    getSlice r (32 + lReadName r + U32_SIZE * nCigarOp r) ((lSeq r + 1) / 2)
  | .RawQual =>
    getSlice r (32 + lReadName r + U32_SIZE * nCigarOp r + (lSeq r + 1) / 2)
      (lSeq r)
  | .RawTags =>
    getSlice r
      (32 + lReadName r + U32_SIZE * nCigarOp r + (lSeq r + 1) / 2 + lSeq r)
      (r.length -
        (32 + lReadName r + U32_SIZE * nCigarOp r + (lSeq r + 1) / 2 + lSeq r))
  | _ => []

/-- A well-formed record: the header-derived lengths fit inside the
record (the accessor invariant `offset(F) + len(F) <= len(record)`). -/
def WFRecord (r : List Nat) : Prop :=
  32 + lReadName r + U32_SIZE * nCigarOp r + (lSeq r + 1) / 2 + lSeq r ≤
    r.length

/-- Little-endian bytes of `n as u32`
(`write_u32::<LittleEndian>(end_pos as u32)`). -/
def u32le (n : Nat) : List Nat :=
  [n % 2 ^ 32 % 2 ^ 8, n % 2 ^ 32 / 2 ^ 8 % 2 ^ 8, n % 2 ^ 32 / 2 ^ 16 % 2 ^ 8,
   n % 2 ^ 32 / 2 ^ 24 % 2 ^ 8]

/-- Per-field writer state: the logical contents of the current open
block (`chunks[f]` holds `offsets[f]` valid bytes), the current item
counter (`num_items[f]`, a `u32`), and the log of this field's
`compress_block` submissions `(bytes, numitems)` in submission order —
the position in the log is the block's `ordering_key`
(`blocks_nums[f]`). -/
structure FieldBuf where
  buffer : List Nat
  offset : Nat
  numItems : Nat
  log : List (List Nat × Nat)
deriving DecidableEq, Repr

/-- A unit of work for the pool (`CompressTask`). -/
structure CompressTask where
  ordering_key : Nat
  field : Fields
  num_items : Nat
  uncompr_size : Nat
  buf : List Nat
deriving DecidableEq, Repr

/-- The compressor pool (`Compressor`), determinised: tasks complete in
submission order (the writer is insensitive to completion order, it
slots results by `ordering_key`).  `sentinels` counts the prefilled
empty blocks the pool hands out while priming
(`Compressor::new(thread_num)`). -/
structure Compressor where
  pending : List CompressTask
  sentinels : Nat
deriving DecidableEq, Repr

/-- `get_compr_block`: while priming, return an empty sentinel
(`uncompr_size = 0`); afterwards, the oldest in-flight task with its
payload compressed.  (With `thread_num = 0` the Rust call would block
forever on an empty pool; the model returns a sentinel, a state no run
with `thread_num ≥ 1` reaches.)  `compress` is the opaque codec. -/
def getComprBlock (compress : List Nat → List Nat) (c : Compressor) :
    CompressTask × Compressor :=
  if 0 < c.sentinels then
    (⟨0, .RefID, 0, 0, []⟩, { c with sentinels := c.sentinels - 1 })
  else
    match c.pending with
    | [] => (⟨0, .RefID, 0, 0, []⟩, c)
    | t :: rest =>
      ({ t with buf := compress (t.buf.take t.uncompr_size) },
       { c with pending := rest })

/-- The output sink: file contents and cursor. -/
structure SinkState where
  file : List Nat
  pos : Nat
deriving DecidableEq, Repr

/-- `write_all` on a seekable sink: overwrite at the cursor,
zero-padding when the cursor lies past the end of the file. -/
def sinkWrite (sk : SinkState) (bytes : List Nat) : SinkState :=
  let f := if sk.file.length < sk.pos
    then sk.file ++ List.replicate (sk.pos - sk.file.length) 0
    else sk.file
  { file := f.take sk.pos ++ bytes ++ f.drop (sk.pos + bytes.length),
    pos := sk.pos + bytes.length }

/-- Per-field footer metadata (`FieldMeta`): ordered block metas and
compressed block sizes, indexed by `ordering_key`. -/
structure FieldMeta where
  blocks : List (BlockMeta (List Nat))
  block_sizes : List Nat
deriving DecidableEq, Repr

/-- The writer state (`Writer`): per-field buffers/counters, the pool,
the accumulating `FileMeta`, and the sink. -/
structure WState where
  bufs : Fields → FieldBuf
  compressor : Compressor
  fileMeta : Fields → FieldMeta
  sink : SinkState

/-- `FILE_INFO_SIZE`: the reserved preamble size, per the spec's schema
(`version [u16;2]`, `meta_seek u64 LE`, `crc32 u32 LE`). -/
def FILE_INFO_SIZE : Nat := 16

def u16le (n : Nat) : List Nat := [n % 2 ^ 8, n / 2 ^ 8 % 2 ^ 8]

def u64le (n : Nat) : List Nat :=
  [n % 2 ^ 8, n / 2 ^ 8 % 2 ^ 8, n / 2 ^ 16 % 2 ^ 8, n / 2 ^ 24 % 2 ^ 8,
   n / 2 ^ 32 % 2 ^ 8, n / 2 ^ 40 % 2 ^ 8, n / 2 ^ 48 % 2 ^ 8,
   n / 2 ^ 56 % 2 ^ 8]

/-- Modelled from the spec: the serialised `FileInfo` preamble
(`FileInfo::new([1,0], meta_start, crc32)` with its `Into<Vec<u8>>`
living in the external `meta.rs`; layout from the spec's SS6 schema). -/
def fileInfoBytes (v0 v1 meta_start crc : Nat) : List Nat :=
  u16le v0 ++ u16le v1 ++ u64le meta_start ++ u32le crc

/-- `Writer::new`: pristine per-field buffers, a pool primed with
`thread_num` sentinels, empty metadata, and the sink cursor moved past
the reserved preamble. -/
def initWState (threadNum : Nat) : WState where
  bufs := fun _ => ⟨[], 0, 0, []⟩
  compressor := ⟨[], threadNum⟩
  fileMeta := fun _ => ⟨[], []⟩
  sink := ⟨[], FILE_INFO_SIZE⟩

/-- `Vec::resize(i + 1, default)` (when needed) followed by `v[i] = x`. -/
def setPad {α : Type} (l : List α) (i : Nat) (d x : α) : List α :=
  (if l.length ≤ i then l ++ List.replicate (i + 1 - l.length) d else l).set i x

/-- `write_data_and_update_meta` (writer.rs:270-287): build the block
meta via `generate_meta` (current seek position, the task's item count,
and `None` statistics), write the compressed payload, and slot the
compressed size and the meta at the task's `ordering_key`. -/
def writeDataAndUpdateMeta (s : WState) (t : CompressTask) : WState :=
  let meta : BlockMeta (List Nat) := ⟨s.sink.pos, t.num_items, none, none⟩
  let fm := s.fileMeta t.field
  { s with
    sink := sinkWrite s.sink t.buf,
    fileMeta := Function.update s.fileMeta t.field
      ⟨setPad fm.blocks t.ordering_key ⟨0, 0, none, none⟩ meta,
       setPad fm.block_sizes t.ordering_key 0 t.buf.length⟩ }

/-- `Writer::flush` (writer.rs:237-268): a no-op on an empty block;
otherwise fetch one completed block from the pool (writing it out
unless it is a priming sentinel, `uncompr_size == 0`), submit the
current chunk to the compressor under the next per-field ordering key,
and reset the field's offset and item counter. -/
def flushF (compress : List Nat → List Nat) (s : WState) (f : Fields) :
    WState :=
  if (s.bufs f).numItems = 0 then s
  else
    let tc := getComprBlock compress s.compressor
    let s1 : WState := { s with compressor := tc.2 }
    let s2 := if tc.1.uncompr_size ≠ 0 then writeDataAndUpdateMeta s1 tc.1
      else s1
    let fb := s2.bufs f
    { s2 with
      compressor := { s2.compressor with
        pending := s2.compressor.pending ++
          [⟨fb.log.length, f, fb.numItems, fb.offset, fb.buffer⟩] },
      bufs := Function.update s2.bufs f
        ⟨[], 0, 0, fb.log ++ [(fb.buffer, fb.numItems)]⟩ }

/-- `Writer::update_field_buf` (writer.rs:213-233): close the current
block first when it is non-empty and the new bytes would overflow
`SIZE_LIMIT`, then copy the bytes into the chunk at the local offset
(zeroed after the `flush` call whether or not `flush` closed anything —
`flush` is a no-op on a `num_items == 0` block) and bump the `u32` item
counter.  The `buffer` component is the chunk's logical content, its
first `offset` bytes. -/
def updateFieldBuf (compress : List Nat → List Nat) (s : WState) (f : Fields)
    (data : List Nat) : WState :=
  let flushNeeded := 0 < (s.bufs f).offset ∧
    SIZE_LIMIT < (s.bufs f).offset + data.length
  let s1 := if flushNeeded then flushF compress s f else s
  let off := if flushNeeded then 0 else (s.bufs f).offset
  let fb := s1.bufs f
  { s1 with
    bufs := Function.update s1.bufs f
      { fb with buffer := fb.buffer.take off ++ data,
                offset := off + data.length,
                numItems := (fb.numItems + 1) % 2 ^ 32 } }

/-- `Writer::push_record` (writer.rs:188-210): for each data-bearing
field in catalog order append its bytes; right after appending a
variable-sized field, append the new cumulative end offset within the
current block (`offsets[field] as u32`, little-endian) to the
companion index field. -/
def pushRecord (compress : List Nat → List Nat) (s : WState) (r : List Nat) :
    WState :=
  let s := updateFieldBuf compress s .RefID (getBytes r .RefID)
  let s := updateFieldBuf compress s .Pos (getBytes r .Pos)
  let s := updateFieldBuf compress s .LName (getBytes r .LName)
  let s := updateFieldBuf compress s .Mapq (getBytes r .Mapq)
  let s := updateFieldBuf compress s .Bin (getBytes r .Bin)
  let s := updateFieldBuf compress s .NCigar (getBytes r .NCigar)
  let s := updateFieldBuf compress s .Flags (getBytes r .Flags)
  let s := updateFieldBuf compress s .SequenceLength
    (getBytes r .SequenceLength)
  let s := updateFieldBuf compress s .NextRefID (getBytes r .NextRefID)
  let s := updateFieldBuf compress s .NextPos (getBytes r .NextPos)
  let s := updateFieldBuf compress s .TemplateLength
    (getBytes r .TemplateLength)
  let s := updateFieldBuf compress s .ReadName (getBytes r .ReadName)
  let s := updateFieldBuf compress s .ReadNameIndex
    (u32le (s.bufs .ReadName).offset)
  let s := updateFieldBuf compress s .RawCigar (getBytes r .RawCigar)
  let s := updateFieldBuf compress s .RawCigarIndex
    (u32le (s.bufs .RawCigar).offset)
  let s := updateFieldBuf compress s .RawSequence (getBytes r .RawSequence)
  let s := updateFieldBuf compress s .RawSequenceIndex
    (u32le (s.bufs .RawSequence).offset)
  let s := updateFieldBuf compress s .RawQual (getBytes r .RawQual)
  let s := updateFieldBuf compress s .RawQualIndex
    (u32le (s.bufs .RawQual).offset)
  let s := updateFieldBuf compress s .RawTags (getBytes r .RawTags)
  updateFieldBuf compress s .RawTagsIndex (u32le (s.bufs .RawTags).offset)

/-- A full writer run: `Writer::new` then `push_record` per record. -/
def runWriter (compress : List Nat → List Nat) (threadNum : Nat)
    (recs : List (List Nat)) : WState :=
  recs.foldl (pushRecord compress) (initWState threadNum)

/-- The writer state reached inside `Writer::finish` right after the
initial per-field `flush` loop (writer.rs:303-305). -/
def finishS1 (compress : List Nat → List Nat) (s : WState) : WState :=
  allFields.foldl (flushF compress) s

/-- The writer state reached inside `Writer::finish` right after the
pool drain (writer.rs:306-309): every pending chunk is compressed and
written out, its metadata recorded, and the pool emptied. -/
def finishS2 (compress : List Nat → List Nat) (s : WState) : WState :=
  ((finishS1 compress s).compressor.pending.map
    (fun t => { t with buf := compress (t.buf.take t.uncompr_size) })).foldl
    writeDataAndUpdateMeta
    { finishS1 compress s with
      compressor := { (finishS1 compress s).compressor with pending := [] } }

/-- `Writer::finish` (writer.rs:301-325): flush every field, drain the
pool writing each remaining block and recording its metadata (the two
stages `finishS1` and `finishS2` above), record the seek position
reached as `meta_start`, serialise `FileMeta` (the `encode` parameter
stands for the external `serde_json`), write it, CRC32 it (the `crc`
parameter stands for the external `crc32fast`), rewind to offset 0,
write the `FileInfo` preamble with version `[1,0]`, `meta_start` and
the CRC, and return the total bytes written (the seek position right
after the metadata). -/
def finishW (compress : List Nat → List Nat)
    (encode : (Fields → FieldMeta) → List Nat) (crc : List Nat → Nat)
    (s : WState) : WState × Nat :=
  let s2 := finishS2 compress s
  let metaStart := s2.sink.pos
  let metaBytes := encode s2.fileMeta
  let crcv := crc metaBytes
  let s3 : WState := { s2 with sink := sinkWrite s2.sink metaBytes }
  let total := s3.sink.pos
  let s4 : WState := { s3 with sink := { s3.sink with pos := 0 } }
  ({ s4 with sink := sinkWrite s4.sink (fileInfoBytes 1 0 metaStart crcv) },
   total)

/-- The per-field sequence of closed-block item counts, in submission
(`ordering_key`) order. -/
def itemsLog (s : WState) (f : Fields) : List Nat :=
  (s.bufs f).log.map (fun b => b.2)

/-- Derived form of `update_field_buf`'s effect on its own field's
buffer state (proved below as `updateFieldBuf_bufs_self`). -/
def ubSelf (fb : FieldBuf) (data : List Nat) : FieldBuf :=
  if 0 < fb.offset ∧ SIZE_LIMIT < fb.offset + data.length then
    (if fb.numItems = 0 then
      ⟨fb.buffer.take 0 ++ data, data.length, (fb.numItems + 1) % 2 ^ 32,
       fb.log⟩
     else ⟨data, data.length, 1 % 2 ^ 32,
       fb.log ++ [(fb.buffer, fb.numItems)]⟩)
  else ⟨fb.buffer.take fb.offset ++ data, fb.offset + data.length,
        (fb.numItems + 1) % 2 ^ 32, fb.log⟩

/-- Derived form of `flush`'s effect on its own field's buffer state
(proved below as `flushF_bufs_self`). -/
def flushSelf (fb : FieldBuf) : FieldBuf :=
  if fb.numItems = 0 then fb
  else ⟨[], 0, 0, fb.log ++ [(fb.buffer, fb.numItems)]⟩

/-- The counting projection of a field's buffer state: current offset,
current item counter, and closed-block item counts. -/
def countsView (fb : FieldBuf) : Nat × Nat × List Nat :=
  (fb.offset, fb.numItems, fb.log.map (fun b => b.2))

/-- The counting projection of one `update_field_buf` step: it depends
only on the appended byte count. -/
def stepCounts (len : Nat) : Nat × Nat × List Nat → Nat × Nat × List Nat :=
  fun cv =>
    if 0 < cv.1 ∧ SIZE_LIMIT < cv.1 + len then
      (if cv.2.1 = 0 then (len, (cv.2.1 + 1) % 2 ^ 32, cv.2.2)
       else (len, 1 % 2 ^ 32, cv.2.2 ++ [cv.2.1]))
    else (cv.1 + len, (cv.2.1 + 1) % 2 ^ 32, cv.2.2)

/-- A minimal well-formed BAM record (the 34-byte `RawRecord::default()`
of record.rs: empty CIGAR, empty sequence, read name `"*\\x00"`). -/
def sampleRecord : List Nat :=
  [255, 255, 255, 255, 255, 255, 255, 255, 2, 255, 72, 18, 0, 0, 4, 0,
   0, 0, 0, 0, 255, 255, 255, 255, 255, 255, 255, 255, 0, 0, 0, 0, 42, 0]

/-- A well-formed record engineered to break cross-field block
uniformity: read-name length 2, 8250 CIGAR ops (a 33000-byte `RawCigar`
payload), no sequence, and a 22000-byte tag region. -/
def recC4 : List Nat :=
  [255, 255, 255, 255, 255, 255, 255, 255, 2, 255, 72, 18, 58, 32, 4, 0,
   0, 0, 0, 0, 255, 255, 255, 255, 255, 255, 255, 255, 0, 0, 0, 0] ++
  [42, 0] ++ List.replicate 33000 0 ++ List.replicate 22000 0

/-! ## Correctness of the block binary searches (claim C1) -/

/-- The `find_leftmost_block` loop homes in on the leftmost block whose
`max_value ≥ id`, provided the statistics are present, `max_value` is
nondecreasing across blocks, and some block satisfies `max_value ≥ id`. -/
theorem flbLoop_finds (metas : List (BlockMeta Int)) (stFn : Nat → BlockStats)
    (id : Int) (L : Nat)
    (hst : ∀ i (hi : i < metas.length), statsOf (metas.get ⟨i, hi⟩) = some (stFn i))
    (hmax : ∀ j, j < metas.length → ∀ i, i ≤ j →
      (stFn i).max_value ≤ (stFn j).max_value)
    (hL : L < metas.length) (hLmax : id ≤ (stFn L).max_value)
    (hLleft : ∀ j, j < L → (stFn j).max_value < id) :
    ∀ (k : Nat) (left right : Int), (right - left).toNat ≤ k →
      -1 ≤ left → left < (L : Int) → (L : Int) ≤ right →
      right ≤ (metas.length : Int) + 1 →
      flbLoop metas id left right = .ok (L : Int) := by
  intro k
  induction k with
  | zero => intro l r hk h1 h2 h3 h4; omega
  | succ k ih =>
    intro l r hk h1 h2 h3 h4
    rw [flbLoop]
    by_cases hlt : 1 < r - l
    · rw [dif_pos hlt]
      have hmid0 : 0 ≤ (l + r) / 2 := by omega
      have hmidlen : ((l + r) / 2).toNat < metas.length := by omega
      rw [dif_pos ⟨hmid0, hmidlen⟩]
      rw [hst _ hmidlen]
      by_cases hc : id ≤ (stFn ((l + r) / 2).toNat).max_value
      · simp only [hc, if_true]
        have hLle : (L : Int) ≤ (l + r) / 2 := by
          by_contra hcon
          exact absurd hc (not_le.mpr (hLleft _ (by omega)))
        exact ih l _ (by omega) h1 h2 hLle (by omega)
      · simp only [hc, if_false]
        have hLgt : (l + r) / 2 < (L : Int) := by
          by_contra hcon
          exact hc (le_trans hLmax (hmax _ hmidlen L (by omega)))
        exact ih _ r (by omega) (by omega) hLgt h3 h4
    · rw [dif_neg hlt]
      have : r = (L : Int) := by omega
      rw [this]

/-- `find_leftmost_block` on sorted statistics: with `L` the leftmost
block index whose `max_value ≥ id`, the function returns `none`
(reference absent) precisely when block `L`'s `min_value > id`, and
`some L` otherwise. -/
theorem find_leftmost_block_eq (metas : List (BlockMeta Int))
    (stFn : Nat → BlockStats) (id : Int) (L : Nat)
    (hst : ∀ i (hi : i < metas.length), statsOf (metas.get ⟨i, hi⟩) = some (stFn i))
    (hmax : ∀ j, j < metas.length → ∀ i, i ≤ j →
      (stFn i).max_value ≤ (stFn j).max_value)
    (hL : L < metas.length) (hLmax : id ≤ (stFn L).max_value)
    (hLleft : ∀ j, j < L → (stFn j).max_value < id) :
    find_leftmost_block id metas =
      .ok (if id < (stFn L).min_value then none else some (L : Int)) := by
  unfold find_leftmost_block
  rw [flbLoop_finds metas stFn id L hst hmax hL hLmax hLleft
    (metas.length + 2) (-1) (metas.length + 1) (by omega) (by omega)
    (by omega) (by omega) (by omega)]
  have hbound : (0 : Int) ≤ (L : Int) ∧ (L : Int).toNat < metas.length :=
    ⟨by omega, by omega⟩
  split
  · next e heq => exact Except.noConfusion heq
  · next r heq =>
    injection heq with hre
    subst hre
    rw [dif_pos hbound]
    have hfin : (⟨((L : Int)).toNat, hbound.2⟩ : Fin metas.length) = ⟨L, hL⟩ := by
      simp [Fin.ext_iff]
    rw [hfin, hst L hL]
    by_cases h : id < (stFn L).min_value <;> simp [h]

/-- The `find_rightmost_block` loop homes in on one past the rightmost
block whose `min_value ≤ id`, provided the statistics are present,
`min_value` is nondecreasing, and block `R` is that rightmost block. -/
theorem frbLoop_finds (metas : List (BlockMeta Int)) (stFn : Nat → BlockStats)
    (id : Int) (R : Nat)
    (hst : ∀ i (hi : i < metas.length), statsOf (metas.get ⟨i, hi⟩) = some (stFn i))
    (hmin : ∀ j, j < metas.length → ∀ i, i ≤ j →
      (stFn i).min_value ≤ (stFn j).min_value)
    (hR : R < metas.length) (hRmin : (stFn R).min_value ≤ id)
    (hRright : ∀ j, R < j → j < metas.length → id < (stFn j).min_value) :
    ∀ (k : Nat) (left right : Int), (right - left).toNat ≤ k →
      -1 ≤ left → left ≤ (R : Int) → (R : Int) < right →
      right ≤ (metas.length : Int) →
      frbLoop metas id left right = .ok ((R : Int) + 1) := by
  intro k
  induction k with
  | zero => intro l r hk h1 h2 h3 h4; omega
  | succ k ih =>
    intro l r hk h1 h2 h3 h4
    rw [frbLoop]
    by_cases hlt : 1 < r - l
    · rw [dif_pos hlt]
      have hmid0 : 0 ≤ (l + r) / 2 := by omega
      have hmidlen : ((l + r) / 2).toNat < metas.length := by omega
      rw [dif_pos ⟨hmid0, hmidlen⟩]
      rw [hst _ hmidlen]
      by_cases hc : (stFn ((l + r) / 2).toNat).min_value ≤ id
      · simp only [hc, if_true]
        have hRge : (l + r) / 2 ≤ (R : Int) := by
          by_contra hcon
          exact absurd hc (not_le.mpr (hRright _ (by omega) hmidlen))
        exact ih _ r (by omega) (by omega) hRge h3 h4
      · simp only [hc, if_false]
        have hRlt : (R : Int) < (l + r) / 2 := by
          by_contra hcon
          exact hc (le_trans (hmin R hR _ (by omega)) hRmin)
        exact ih l _ (by omega) h1 h2 hRlt (by omega)
    · rw [dif_neg hlt]
      have : r = (R : Int) + 1 := by omega
      rw [this]

/-- `find_rightmost_block` on sorted statistics returns `R + 1`, one
past the rightmost block whose `min_value ≤ id`. -/
theorem find_rightmost_block_eq (metas : List (BlockMeta Int))
    (stFn : Nat → BlockStats) (id : Int) (R : Nat)
    (hst : ∀ i (hi : i < metas.length), statsOf (metas.get ⟨i, hi⟩) = some (stFn i))
    (hmin : ∀ j, j < metas.length → ∀ i, i ≤ j →
      (stFn i).min_value ≤ (stFn j).min_value)
    (hR : R < metas.length) (hRmin : (stFn R).min_value ≤ id)
    (hRright : ∀ j, R < j → j < metas.length → id < (stFn j).min_value) :
    find_rightmost_block id metas = .ok ((R : Int) + 1) := by
  unfold find_rightmost_block
  exact frbLoop_finds metas stFn id R hst hmin hR hRmin hRright
    (metas.length + 1) (-1) metas.length (by omega) (by omega) (by omega)
    (by omega) (by omega)

/-- Claim C1, corrected.  For every target `ref_id` and every `RefID`
block-metadata list with statistics present whose per-block `min_value`
and `max_value` are nondecreasing, with `L` the leftmost block whose
`max_value ≥ ref_id`: when `min_value(L) > ref_id` the whole depth
computation panics (the `.expect` on `find_leftmost_block`'s `None`)
rather than merely producing no output; otherwise, with `R` the
rightmost block whose `min_value ≤ ref_id` and `B` the item count of
the first `RefID` block, the scanned record indices are the *inclusive*
range `[L·B, min((R+1)·B, total_records − 1)]` — one index more than
the claimed half-open `[L·B, min((R+1)·B, total_records))` whenever
`(R+1)·B ≤ total_records − 1`. -/
theorem c1_region_selection (metas : List (BlockMeta Int))
    (stFn : Nat → BlockStats) (refId : Int) (n L : Nat) (m0 : BlockMeta Int)
    (hst : ∀ i (hi : i < metas.length), statsOf (metas.get ⟨i, hi⟩) = some (stFn i))
    (hmax : ∀ j, j < metas.length → ∀ i, i ≤ j →
      (stFn i).max_value ≤ (stFn j).max_value)
    (hmin : ∀ j, j < metas.length → ∀ i, i ≤ j →
      (stFn i).min_value ≤ (stFn j).min_value)
    (hL : L < metas.length) (hLmax : refId ≤ (stFn L).max_value)
    (hLleft : ∀ j, j < L → (stFn j).max_value < refId)
    (hhead : metas.head? = some m0) (hn : 0 < n) :
    (refId < (stFn L).min_value →
      calcDepthRange metas refId n = .error "RefID was not found in block meta.")
    ∧ ((stFn L).min_value ≤ refId →
      ∀ R : Nat, R < metas.length → (stFn R).min_value ≤ refId →
        (∀ j, R < j → j < metas.length → refId < (stFn j).min_value) →
        calcDepthRange metas refId n =
          .ok (L * m0.numitems, min ((R + 1) * m0.numitems) (n - 1))) := by
  constructor
  · intro habsent
    unfold calcDepthRange
    rw [find_leftmost_block_eq metas stFn refId L hst hmax hL hLmax hLleft]
    rw [if_pos habsent]
  · intro hpresent R hR hRmin hRright
    unfold calcDepthRange
    rw [find_leftmost_block_eq metas stFn refId L hst hmax hL hLmax hLleft]
    rw [if_neg (by omega)]
    rw [find_rightmost_block_eq metas stFn refId R hst hmin hR hRmin hRright]
    rw [hhead]
    have hn0 : ¬ (n = 0) := by omega
    have h2 : ((R : Int) + 1).toNat = R + 1 := by omega
    simp only [hn0, if_false, Int.toNat_natCast, h2]

/-- Witness for `c1_region_selection`: the two-block metadata list
`[{min = max = 0}, {min = max = 1}]` with one item per block and two
records, queried for `ref_id = 0`. -/
theorem c1_region_selection_witness :
    calcDepthRange [⟨0, 1, some 0, some 0⟩, ⟨9, 1, some 1, some 1⟩] 0 2 =
      .ok (0 * 1, min ((0 + 1) * 1) (2 - 1)) :=
  (c1_region_selection [⟨0, 1, some 0, some 0⟩, ⟨9, 1, some 1, some 1⟩]
    (fun i => if i = 0 then ⟨0, 0⟩ else ⟨1, 1⟩) 0 2 0 ⟨0, 1, some 0, some 0⟩
    (by decide) (by decide) (by decide) (by decide) (by decide) (by decide)
    (by decide) (by decide)).2 (by decide) 0 (by decide) (by decide)
    (fun j hj1 hj2 => by
      have hj : j = 1 := by
        simp only [List.length_cons, List.length_nil] at hj2; omega
      subst hj; decide)

/-- Counterexample for claim C1 as stated: on the two-block metadata
list `[{min = max = 0}, {min = max = 1}]` (one item per block, `B = 1`)
with 2 records and target `ref_id = 0`, the leftmost block with
`max_value ≥ 0` is `L = 0`, the rightmost block with `min_value ≤ 0` is
`R = 0`, and the claimed half-open scan range
`[L·B, min((R+1)·B, total_records)) = [0, 1)` excludes record index 1 —
but the code's inclusive scan range is `(first, last) = (0, 1)`, so
index 1 *is* scanned (`1 ∈ first..=last`). -/
theorem c1_counterexample :
    calcDepthRange [⟨0, 1, some 0, some 0⟩, ⟨9, 1, some 1, some 1⟩] 0 2 =
        .ok (0, 1) ∧
      (1 ∈ List.range' 0 (1 + 1 - 0)) ∧
      ¬ (1 < min ((0 + 1) * 1) 2) := by
  refine ⟨?_, by decide, by decide⟩
  simp [calcDepthRange, find_leftmost_block, find_rightmost_block, flbLoop,
    frbLoop, statsOf]

/-- Claim C3: the code panics instead.  A record whose end coordinate
equals `ref_len` makes the sweep index `scan_line[ref_len]` on a vector
of length exactly `ref_len` (`coverage_arr.resize(ref_len, 0)`), an
out-of-bounds panic: with one block of one record `{refid = 0, pos = 0,
base_coverage = 10}` on a reference of length 10, `calc_depth`
panics. -/
theorem c3_end_at_ref_len_panics :
    calcDepthModel [⟨0, 0, 10⟩] [⟨0, 1, some 0, some 0⟩] 1 0 10 =
      .error "scan_line index out of bounds" := by
  simp [calcDepthModel, calcDepthRange, find_leftmost_block,
    find_rightmost_block, flbLoop, frbLoop, statsOf, processIdxs]

/-- Claim C7: the code panics instead of falling back.  When the
`RefID` block metadata carries no statistics, `find_leftmost_block`
immediately hits `stats.as_ref().unwrap()` on `None`, so any depth
query panics; there is no scan-all fallback and no output. -/
theorem c7_stats_absent_panics :
    find_leftmost_block 0 [⟨0, 5, none, none⟩] = .error "stats absent" ∧
      calcDepthModel [] [⟨0, 5, none, none⟩] 5 0 100 =
        .error "stats absent" := by
  constructor
  · simp [find_leftmost_block, flbLoop, statsOf]
  · simp [calcDepthModel, calcDepthRange, find_leftmost_block, flbLoop,
      statsOf]

/-! ## The sweep-line coverage identity (claim C2) -/

theorem wrap32_bounds (x : Int) : -2 ^ 31 ≤ wrap32 x ∧ wrap32 x < 2 ^ 31 := by
  unfold wrap32; omega

theorem wrap32_modeq (x : Int) : wrap32 x ≡ x [ZMOD 2 ^ 32] := by
  unfold wrap32 Int.ModEq; omega

theorem sum_take_set (l : List Int) (j : Nat) (v : Int) :
    ∀ p, j < l.length →
      ((l.set j v).take (p + 1)).sum =
        (l.take (p + 1)).sum + (if j ≤ p then v - l.getD j 0 else 0) := by
  induction l generalizing j v with
  | nil => intro p h; simp at h
  | cons a tl ih =>
    intro p hj
    cases j with
    | zero =>
      simp [List.set_cons_zero, List.take_succ_cons]
      ring
    | succ jj =>
      cases p with
      | zero => simp [List.set_cons_succ, List.take_succ_cons]
      | succ pp =>
        have hjj : jj < tl.length := by simpa using hj
        simp only [List.set_cons_succ, List.take_succ_cons, List.sum_cons,
          ih jj v pp hjj, List.getD_cons_succ]
        by_cases hle : jj ≤ pp
        · simp only [hle, if_true, Nat.add_le_add_iff_right, if_pos hle]
          ring
        · simp only [hle, if_false, if_neg (by omega : ¬ jj + 1 ≤ pp + 1)]
          ring

theorem sum_take_replicate (n m : Nat) :
    (((List.replicate n (0 : Int))).take m).sum = 0 := by
  simp [List.take_replicate]

/-- One step of the sweep contributes `+1` to every prefix sum from the
read's start and `-1` from its end; accumulated over `process_range`'s
whole scan, the `p`-th prefix sum of the output is congruent (mod
`2^32`) to the input's prefix sum plus the number of scanned matching
reads starting at or before `p` minus the number ending at or before
`p`. -/
theorem processIdxs_sum (records : List GRecord) (target : Int) :
    ∀ (idxs : List Nat) (scan out : List Int),
      processIdxs records target idxs scan = .ok out →
      out.length = scan.length ∧
      ∀ p, p < scan.length →
        ((out.take (p + 1)).sum) ≡
          ((scan.take (p + 1)).sum
            + ((idxs.filter (startedLE records target p)).length : Int)
            - ((idxs.filter (endedLE records target p)).length : Int))
          [ZMOD 2 ^ 32] := by
  intro idxs
  induction idxs with
  | nil =>
    intro scan out h
    simp only [processIdxs] at h
    injection h with h
    subst h
    exact ⟨rfl, fun p _ => by simp [Int.ModEq.refl]⟩
  | cons i rest ih =>
    intro scan out h
    unfold processIdxs at h
    split at h
    · exact Except.noConfusion h
    · next r hrec =>
      by_cases hrid : r.refid ≠ target
      · rw [if_pos hrid] at h
        obtain ⟨hlen, hsum⟩ := ih scan out h
        refine ⟨hlen, fun p hp => ?_⟩
        have hs : startedLE records target p i = false := by
          unfold startedLE; rw [hrec]; simp [hrid]
        have he : endedLE records target p i = false := by
          unfold endedLE; rw [hrec]; simp [hrid]
        simpa [List.filter_cons, hs, he] using hsum p hp
      · rw [if_neg hrid] at h
        push_neg at hrid
        by_cases hposneg : r.pos < 0
        · rw [if_pos hposneg] at h; exact Except.noConfusion h
        · rw [if_neg hposneg] at h
          by_cases hsb : r.pos.toNat < scan.length
          · rw [if_pos hsb] at h
            set w1 := wrap32 (scan.getD r.pos.toNat 0 + 1) with hw1def
            set scan1 := scan.set r.pos.toNat w1 with hscan1def
            by_cases heb : r.pos.toNat + r.baseCov < scan1.length
            · rw [if_pos heb] at h
              obtain ⟨hlen, hsum⟩ := ih _ out h
              have hlen1 : scan1.length = scan.length := by
                rw [hscan1def]; simp
              refine ⟨by rw [hlen]; simp [hlen1], fun p hp => ?_⟩
              have hIH := hsum p (by simpa [hlen1] using hp)
              have heb' : r.pos.toNat + r.baseCov < scan.length := by
                rw [hlen1] at heb; exact heb
              have hstep1 : (scan1.take (p + 1)).sum =
                  (scan.take (p + 1)).sum +
                    (if r.pos.toNat ≤ p then w1 - scan.getD r.pos.toNat 0
                     else 0) := by
                rw [hscan1def]; exact sum_take_set scan _ _ p hsb
              have hstep2 :
                  ((scan1.set (r.pos.toNat + r.baseCov)
                    (wrap32 (scan1.getD (r.pos.toNat + r.baseCov) 0 - 1))).take
                      (p + 1)).sum =
                  (scan1.take (p + 1)).sum +
                    (if r.pos.toNat + r.baseCov ≤ p then
                      wrap32 (scan1.getD (r.pos.toNat + r.baseCov) 0 - 1) -
                        scan1.getD (r.pos.toNat + r.baseCov) 0
                     else 0) :=
                sum_take_set scan1 _ _ p heb
              have hsI : startedLE records target p i =
                  decide (r.pos.toNat ≤ p) := by
                unfold startedLE; rw [hrec]
                simp [hrid, not_lt.mp hposneg, Int.toNat_le]
              have heI : endedLE records target p i =
                  decide (r.pos.toNat + r.baseCov ≤ p) := by
                unfold endedLE; rw [hrec]
                simp [hrid, not_lt.mp hposneg]
              have hww1 : w1 % 2 ^ 32 =
                  (scan.getD r.pos.toNat 0 + 1) % 2 ^ 32 := wrap32_modeq _
              have hww2 : wrap32 (scan1.getD (r.pos.toNat + r.baseCov) 0 - 1) %
                    2 ^ 32 =
                  (scan1.getD (r.pos.toNat + r.baseCov) 0 - 1) % 2 ^ 32 :=
                wrap32_modeq _
              have hcS : (List.filter (startedLE records target p)
                    (i :: rest)).length =
                  (if r.pos.toNat ≤ p then 1 else 0) +
                    (List.filter (startedLE records target p) rest).length := by
                by_cases hsp : r.pos.toNat ≤ p <;>
                  simp [List.filter_cons, hsI, hsp] <;> omega
              have hcE : (List.filter (endedLE records target p)
                    (i :: rest)).length =
                  (if r.pos.toNat + r.baseCov ≤ p then 1 else 0) +
                    (List.filter (endedLE records target p) rest).length := by
                by_cases hep : r.pos.toNat + r.baseCov ≤ p <;>
                  simp [List.filter_cons, heI, hep] <;> omega
              unfold Int.ModEq at hIH ⊢
              rw [hcS, hcE]
              by_cases hsp : r.pos.toNat ≤ p <;>
                by_cases hep : r.pos.toNat + r.baseCov ≤ p <;>
                simp only [hsp, hep, if_true, if_false, Nat.cast_add,
                  Nat.cast_one, Nat.cast_zero] at hstep1 hstep2 ⊢ <;>
                omega
            · rw [if_neg heb] at h; exact Except.noConfusion h
          · rw [if_neg hsb] at h; exact Except.noConfusion h

/-- Every entry of the in-place prefix sum is in the `i32` range and is
congruent mod `2^32` to the untruncated prefix sum. -/
theorem prefixSumWrap_get (l : List Int) :
    ∀ (acc : Int) (p : Nat), p < l.length →
      ∃ v, (prefixSumWrap acc l).get? p = some v ∧ -2 ^ 31 ≤ v ∧ v < 2 ^ 31 ∧
        v ≡ (acc + (l.take (p + 1)).sum) [ZMOD 2 ^ 32] := by
  induction l with
  | nil => intro acc p h; simp at h
  | cons x xs ih =>
    intro acc p hp
    cases p with
    | zero =>
      refine ⟨wrap32 (acc + x), by simp [prefixSumWrap], (wrap32_bounds _).1,
        (wrap32_bounds _).2, ?_⟩
      simpa [List.take_succ_cons] using wrap32_modeq (acc + x)
    | succ pp =>
      obtain ⟨v, hv, h1, h2, h3⟩ := ih (wrap32 (acc + x)) pp (by simpa using hp)
      refine ⟨v, by simpa [prefixSumWrap] using hv, h1, h2, ?_⟩
      have hw := wrap32_modeq (acc + x)
      unfold Int.ModEq at h3 hw ⊢
      simp only [List.take_succ_cons, List.sum_cons]
      omega

/-- Every matching read that has ended by `p` has also started by `p`
(its start is at most its end), so the started-by-`p` count splits into
covering reads and ended reads. -/
theorem started_count_split (records : List GRecord) (target : Int) (p : Nat) :
    ∀ idxs : List Nat,
      (idxs.filter (startedLE records target p)).length =
        (idxs.filter (coversAt records target p)).length +
          (idxs.filter (endedLE records target p)).length := by
  intro idxs
  induction idxs with
  | nil => simp
  | cons i rest ih =>
    have harms : startedLE records target p i =
        (coversAt records target p i || endedLE records target p i) ∧
        ¬(coversAt records target p i = true ∧
          endedLE records target p i = true) := by
      unfold startedLE coversAt endedLE
      cases hrec : records.get? i with
      | none => simp
      | some r =>
        constructor
        · rw [Bool.eq_iff_iff]
          simp only [Bool.or_eq_true, decide_eq_true_eq]
          constructor
          · rintro ⟨h1, h2, h3⟩
            by_cases hend : r.pos.toNat + r.baseCov ≤ p
            · exact Or.inr ⟨h1, h2, hend⟩
            · exact Or.inl ⟨h1, h2, h3, by omega⟩
          · rintro (⟨h1, h2, h3, _⟩ | ⟨h1, h2, h3⟩)
            · exact ⟨h1, h2, h3⟩
            · exact ⟨h1, h2, by omega⟩
        · simp only [decide_eq_true_eq, not_and]
          rintro ⟨_, _, _, h4⟩ ⟨_, _, h5⟩
          omega
    obtain ⟨h1, h2⟩ := harms
    by_cases hc : coversAt records target p i = true <;>
      by_cases he : endedLE records target p i = true
    · exact absurd ⟨hc, he⟩ h2
    · simp [List.filter_cons, h1, hc, he, ih]; omega
    · simp [List.filter_cons, h1, hc, he, ih]; omega
    · simp [List.filter_cons, h1, hc, he, ih]

/-- Claim C2, confirmed (assuming fewer scanned indices than `2^31`, so
that the 32-bit counters cannot wrap).  Whenever `process_range`'s
sweep over a zeroed coverage vector of length `ref_len` completes
without panicking, the in-place prefix sum yields, at every position
`p < ref_len`, exactly the number of scanned matching records with
`s_i ≤ p < e_i` (`s_i = pos`, `e_i = pos + base_coverage(cigar)`). -/
theorem c2_coverage_identity (records : List GRecord) (target : Int)
    (idxs : List Nat) (refLen : Nat) (scanOut : List Int)
    (hrun : processIdxs records target idxs (List.replicate refLen 0) =
      .ok scanOut)
    (hsmall : idxs.length < 2 ^ 31) :
    ∀ p, p < refLen →
      (prefixSumWrap 0 scanOut).get? p =
        some ((coverCount records target idxs p : Int)) := by
  intro p hp
  obtain ⟨hlen, hsum⟩ := processIdxs_sum records target idxs _ scanOut hrun
  have hlen' : scanOut.length = refLen := by simpa using hlen
  have hps := hsum p (by simpa using hp)
  obtain ⟨v, hv, hlow, hhigh, hmod⟩ :=
    prefixSumWrap_get scanOut 0 p (by omega)
  rw [hv]
  have hrepl : (((List.replicate refLen (0 : Int))).take (p + 1)).sum = 0 :=
    sum_take_replicate refLen (p + 1)
  rw [hrepl] at hps
  have hsplit := started_count_split records target p idxs
  have hcle : (idxs.filter (coversAt records target p)).length ≤ idxs.length :=
    List.length_filter_le _ _
  have hele : (idxs.filter (endedLE records target p)).length ≤ idxs.length :=
    List.length_filter_le _ _
  unfold Int.ModEq at hps hmod
  unfold coverCount
  congr 1
  omega

/-- Witness for `c2_coverage_identity`: one record `{refid = 0,
pos = 1, base_coverage = 2}` on a reference of length 5; the sweep
yields `[0, 1, 0, -1, 0]` and position 2 is covered exactly once. -/
theorem c2_coverage_identity_witness :
    (prefixSumWrap 0 [0, 1, 0, -1, 0]).get? 2 =
      some ((coverCount [⟨0, 1, 2⟩] 0 [0] 2 : Int)) :=
  c2_coverage_identity [⟨0, 1, 2⟩] 0 [0] 5 [0, 1, 0, -1, 0] (by rfl)
    (by decide) 2 (by decide)

/-- Claim C9: the depth output is independent of the `mapq` argument.
`main_depth` binds `qual_cutoff = mapq.unwrap_or(0)` and never reads
it, so two runs that differ only in `mapq` produce identical rows. -/
theorem c9_mapq_independent (records : List GRecord)
    (metas : List (BlockMeta Int)) (refSeqs : List (String × Nat))
    (queries0 : List (String × List (Nat × Nat))) (n : Nat)
    (mapq1 mapq2 : Option Nat) :
    mainDepthRows records metas refSeqs queries0 mapq1 n =
      mainDepthRows records metas refSeqs queries0 mapq2 n := rfl

/-! ## Writer projection lemmas (claims C4, C5, C6) -/

theorem flushF_bufs_self (compress : List Nat → List Nat) (s : WState)
    (f : Fields) : (flushF compress s f).bufs f = flushSelf (s.bufs f) := by
  unfold flushF flushSelf
  by_cases hni : (s.bufs f).numItems = 0
  · rw [if_pos hni, if_pos hni]
  · rw [if_neg hni, if_neg hni]
    by_cases htc : (getComprBlock compress s.compressor).1.uncompr_size ≠ 0 <;>
      simp [htc, writeDataAndUpdateMeta]

theorem flushF_bufs_ne (compress : List Nat → List Nat) (s : WState)
    (f g : Fields) (h : f ≠ g) :
    (flushF compress s f).bufs g = s.bufs g := by
  unfold flushF
  by_cases hni : (s.bufs f).numItems = 0
  · rw [if_pos hni]
  · rw [if_neg hni]
    by_cases htc : (getComprBlock compress s.compressor).1.uncompr_size ≠ 0 <;>
      simp [htc, writeDataAndUpdateMeta, Function.update_noteq (Ne.symm h)]

theorem updateFieldBuf_bufs_self (compress : List Nat → List Nat) (s : WState)
    (f : Fields) (data : List Nat) :
    (updateFieldBuf compress s f data).bufs f = ubSelf (s.bufs f) data := by
  by_cases hcond : 0 < (s.bufs f).offset ∧
      SIZE_LIMIT < (s.bufs f).offset + data.length
  · simp only [updateFieldBuf, ubSelf, hcond, true_and, and_true, if_true,
      Function.update_same, flushF_bufs_self, flushSelf]
    by_cases hni : (s.bufs f).numItems = 0
    · simp [hni]
    · simp [hni]
  · simp only [updateFieldBuf, ubSelf, hcond, if_false,
      Function.update_same]

theorem updateFieldBuf_bufs_ne (compress : List Nat → List Nat) (s : WState)
    (f g : Fields) (data : List Nat) (h : f ≠ g) :
    (updateFieldBuf compress s f data).bufs g = s.bufs g := by
  by_cases hcond : 0 < (s.bufs f).offset ∧
      SIZE_LIMIT < (s.bufs f).offset + data.length
  · simp only [updateFieldBuf, hcond, true_and, and_true, if_true,
      Function.update_noteq (Ne.symm h), flushF_bufs_ne compress s f g h]
  · simp only [updateFieldBuf, hcond, if_false,
      Function.update_noteq (Ne.symm h)]

/-- `push_record` updates each data-bearing field's buffer exactly once,
through the `update_field_buf` step applied to its own bytes. -/
theorem pushRecord_bufs_data (compress : List Nat → List Nat) (s : WState)
    (r : List Nat) :
    ∀ f ∈ fixedDataFields ++ varDataFields,
      (pushRecord compress s r).bufs f = ubSelf (s.bufs f) (getBytes r f) := by
  intro f hf
  fin_cases hf <;>
    simp only [pushRecord, updateFieldBuf_bufs_ne, updateFieldBuf_bufs_self,
      ne_eq, reduceCtorEq, not_false_iff]

/-- The counting projection of one `update_field_buf` step depends only
on the appended byte count. -/
theorem countsView_ubSelf (fb : FieldBuf) (data : List Nat) :
    countsView (ubSelf fb data) = stepCounts data.length (countsView fb) := by
  unfold ubSelf stepCounts countsView
  by_cases hcond : 0 < fb.offset ∧ SIZE_LIMIT < fb.offset + data.length
  · by_cases hni : fb.numItems = 0 <;> simp [hcond, hni]
  · simp [hcond]

theorem mem_allFields (f : Fields) : f ∈ allFields := by
  cases f <;> decide

theorem allFields_nodup : allFields.Nodup := by decide

theorem foldl_flushF_not_mem (compress : List Nat → List Nat) (f : Fields) :
    ∀ (l : List Fields), f ∉ l → ∀ s : WState,
      ((l.foldl (flushF compress) s).bufs f) = s.bufs f := by
  intro l
  induction l with
  | nil => intro _ s; rfl
  | cons a rest ih =>
    intro h s
    rw [List.foldl_cons, ih (fun hm => h (List.mem_cons_of_mem a hm))]
    exact flushF_bufs_ne compress s a f
      (fun he => h (he ▸ List.mem_cons_self a rest))

theorem foldl_flushF_mem (compress : List Nat → List Nat) (f : Fields) :
    ∀ (l : List Fields), f ∈ l → l.Nodup → ∀ s : WState,
      ((l.foldl (flushF compress) s).bufs f) = flushSelf (s.bufs f) := by
  intro l
  induction l with
  | nil => intro h; exact absurd h (List.not_mem_nil f)
  | cons a rest ih =>
    intro hmem hnd s
    rw [List.foldl_cons]
    by_cases haf : a = f
    · subst haf
      rw [foldl_flushF_not_mem compress a rest (List.nodup_cons.mp hnd).1,
        flushF_bufs_self]
    · have hfr : f ∈ rest := by
        rcases List.mem_cons.mp hmem with h | h
        · exact absurd h.symm haf
        · exact h
      rw [ih hfr (List.nodup_cons.mp hnd).2,
        flushF_bufs_ne compress s a f haf]

theorem foldl_writeData_bufs :
    ∀ (l : List CompressTask) (s : WState),
      ((l.foldl writeDataAndUpdateMeta s).bufs) = s.bufs := by
  intro l
  induction l with
  | nil => intro s; rfl
  | cons t rest ih =>
    intro s
    rw [List.foldl_cons, ih]
    rfl

theorem finishW_bufs (compress : List Nat → List Nat)
    (encode : (Fields → FieldMeta) → List Nat) (crc : List Nat → Nat)
    (s : WState) :
    ((finishW compress encode crc s).1).bufs =
      (allFields.foldl (flushF compress) s).bufs := by
  unfold finishW finishS2 finishS1
  simp only [foldl_writeData_bufs]

/-- After `finish`, a field's log of per-block item counts is its log
before `finish`, closed off with the final partial block (when
non-empty). -/
theorem itemsLog_finishW (compress : List Nat → List Nat)
    (encode : (Fields → FieldMeta) → List Nat) (crc : List Nat → Nat)
    (s : WState) (f : Fields) :
    itemsLog (finishW compress encode crc s).1 f =
      if (s.bufs f).numItems = 0 then itemsLog s f
      else itemsLog s f ++ [(s.bufs f).numItems] := by
  unfold itemsLog
  rw [congrFun (finishW_bufs compress encode crc s) f,
    foldl_flushF_mem compress f allFields (mem_allFields f) allFields_nodup s]
  unfold flushSelf
  by_cases h : (s.bufs f).numItems = 0 <;> simp [h]

/-- The counting view of one `push_record` step on a data-bearing
field. -/
theorem countsView_pushRecord_data (compress : List Nat → List Nat)
    (s : WState) (r : List Nat) (f : Fields)
    (hf : f ∈ fixedDataFields ++ varDataFields) :
    countsView ((pushRecord compress s r).bufs f) =
      stepCounts (getBytes r f).length (countsView (s.bufs f)) := by
  rw [pushRecord_bufs_data compress s r f hf, countsView_ubSelf]

/-- A fixed-width field's slice always has exactly its width (records
carry at least the 32-byte header). -/
theorem getBytes_fixed_length (f : Fields) (hf : f ∈ fixedDataFields)
    (r : List Nat) (hr : 32 ≤ r.length) :
    (getBytes r f).length = fieldWidth f := by
  fin_cases hf <;>
    simp [getBytes, getSlice, fieldWidth] <;> omega

theorem foldl_push_counts (compress : List Nat → List Nat) (f g : Fields)
    (hf : f ∈ fixedDataFields) (hg : g ∈ fixedDataFields)
    (hw : fieldWidth f = fieldWidth g) :
    ∀ (recs : List (List Nat)) (s : WState), (∀ r ∈ recs, 32 ≤ r.length) →
      countsView (s.bufs f) = countsView (s.bufs g) →
      countsView ((recs.foldl (pushRecord compress) s).bufs f) =
        countsView ((recs.foldl (pushRecord compress) s).bufs g) := by
  intro recs
  induction recs with
  | nil => intro s _ h; exact h
  | cons r rest ih =>
    intro s hlen h
    rw [List.foldl_cons]
    apply ih _ (fun x hx => hlen x (List.mem_cons_of_mem r hx))
    rw [countsView_pushRecord_data compress s r f (List.mem_append_left _ hf),
      countsView_pushRecord_data compress s r g (List.mem_append_left _ hg),
      getBytes_fixed_length f hf r (hlen r (List.mem_cons_self r rest)),
      getBytes_fixed_length g hg r (hlen r (List.mem_cons_self r rest)),
      h, hw]

/-- Claim C4, corrected (amended).  The n-th closed block's item count
is NOT uniform across all data-bearing fields (closure depends on each
field's per-record byte size — see `c4_counterexample`); what holds is
that any two fixed-width data-bearing fields with the same byte width
close blocks at the same record boundaries, so after `finish` their
per-block item-count sequences coincide. -/
theorem c4_same_width_fixed_fields (compress : List Nat → List Nat)
    (encode : (Fields → FieldMeta) → List Nat) (crc : List Nat → Nat)
    (threadNum : Nat) (recs : List (List Nat)) (f g : Fields)
    (hf : f ∈ fixedDataFields) (hg : g ∈ fixedDataFields)
    (hw : fieldWidth f = fieldWidth g)
    (hr : ∀ r ∈ recs, 32 ≤ r.length) :
    itemsLog (finishW compress encode crc (runWriter compress threadNum recs)).1
        f =
      itemsLog (finishW compress encode crc
        (runWriter compress threadNum recs)).1 g := by
  have hrun := foldl_push_counts compress f g hf hg hw recs
    (initWState threadNum) hr rfl
  rw [itemsLog_finishW, itemsLog_finishW]
  unfold countsView at hrun
  have h1 : ((runWriter compress threadNum recs).bufs f).numItems =
      ((runWriter compress threadNum recs).bufs g).numItems := by
    have := congrArg (fun p => p.2.1) hrun
    simpa [runWriter] using this
  have h2 : itemsLog (runWriter compress threadNum recs) f =
      itemsLog (runWriter compress threadNum recs) g := by
    have := congrArg (fun p => p.2.2) hrun
    simpa [runWriter, itemsLog] using this
  rw [h1, h2]

/-- Witness for `c4_same_width_fixed_fields`: `RefID` and `Pos` (both
4-byte fields) after one pushed record. -/
theorem c4_same_width_fixed_fields_witness :
    itemsLog (finishW id (fun _ => []) (fun _ => 0)
        (runWriter id 1 [sampleRecord])).1 .RefID =
      itemsLog (finishW id (fun _ => []) (fun _ => 0)
        (runWriter id 1 [sampleRecord])).1 .Pos :=
  c4_same_width_fixed_fields id (fun _ => []) (fun _ => 0) 1 [sampleRecord]
    .RefID .Pos (by decide) (by decide) (by decide) (by decide)

theorem c4_cigar_log :
    itemsLog (finishW id (fun _ => []) (fun _ => 0)
        (runWriter id 1 [recC4, recC4, recC4])).1 .RawCigar = [1, 1, 1] := by
  have hname : lReadName recC4 = 2 := rfl
  have hncig : nCigarOp recC4 = 8250 := rfl
  have hlen4 : recC4.length = 55034 := by
    unfold recC4
    simp only [List.length_append, List.length_replicate, List.length_cons,
      List.length_nil]
  have hcigl : (getBytes recC4 .RawCigar).length = 33000 := by
    show ((recC4.drop (32 + lReadName recC4)).take
      (U32_SIZE * nCigarOp recC4)).length = 33000
    rw [List.length_take, List.length_drop, hname, hncig, hlen4]
    norm_num [U32_SIZE]
  have hpushc : ∀ s : WState,
      countsView ((pushRecord id s recC4).bufs .RawCigar) =
        stepCounts 33000 (countsView (s.bufs .RawCigar)) := fun s => by
    rw [countsView_pushRecord_data id s recC4 .RawCigar (by decide), hcigl]
  have hrunc : countsView ((runWriter id 1 [recC4, recC4, recC4]).bufs
      .RawCigar) = (33000, 1, [1, 1]) := by
    show countsView ((pushRecord id (pushRecord id (pushRecord id
      (initWState 1) recC4) recC4) recC4).bufs .RawCigar) = _
    rw [hpushc, hpushc, hpushc]
    decide
  unfold countsView at hrunc
  rw [Prod.mk.injEq, Prod.mk.injEq] at hrunc
  obtain ⟨hoff, hc1, hc2⟩ := hrunc
  rw [itemsLog_finishW, if_neg (by rw [hc1]; decide)]
  unfold itemsLog
  rw [hc1, hc2]
  rfl

theorem c4_tags_log :
    itemsLog (finishW id (fun _ => []) (fun _ => 0)
        (runWriter id 1 [recC4, recC4, recC4])).1 .RawTags = [2, 1] := by
  have hname : lReadName recC4 = 2 := rfl
  have hncig : nCigarOp recC4 = 8250 := rfl
  have hlseq : lSeq recC4 = 0 := rfl
  have hlen4 : recC4.length = 55034 := by
    unfold recC4
    simp only [List.length_append, List.length_replicate, List.length_cons,
      List.length_nil]
  have htagl : (getBytes recC4 .RawTags).length = 22000 := by
    show ((recC4.drop (32 + lReadName recC4 + U32_SIZE * nCigarOp recC4 +
        (lSeq recC4 + 1) / 2 + lSeq recC4)).take
      (recC4.length - (32 + lReadName recC4 + U32_SIZE * nCigarOp recC4 +
        (lSeq recC4 + 1) / 2 + lSeq recC4))).length = 22000
    rw [List.length_take, List.length_drop, hname, hncig, hlseq, hlen4]
    norm_num [U32_SIZE]
  have hpusht : ∀ s : WState,
      countsView ((pushRecord id s recC4).bufs .RawTags) =
        stepCounts 22000 (countsView (s.bufs .RawTags)) := fun s => by
    rw [countsView_pushRecord_data id s recC4 .RawTags (by decide), htagl]
  have hrunt : countsView ((runWriter id 1 [recC4, recC4, recC4]).bufs
      .RawTags) = (22000, 1, [2]) := by
    show countsView ((pushRecord id (pushRecord id (pushRecord id
      (initWState 1) recC4) recC4) recC4).bufs .RawTags) = _
    rw [hpusht, hpusht, hpusht]
    decide
  unfold countsView at hrunt
  rw [Prod.mk.injEq, Prod.mk.injEq] at hrunt
  obtain ⟨hofft, ht1, ht2⟩ := hrunt
  rw [itemsLog_finishW, if_neg (by rw [ht1]; decide)]
  unfold itemsLog
  rw [ht1, ht2]
  rfl

theorem c4_counterexample :
    itemsLog (finishW id (fun _ => []) (fun _ => 0)
        (runWriter id 1 [recC4, recC4, recC4])).1 .RawCigar = [1, 1, 1] ∧
    itemsLog (finishW id (fun _ => []) (fun _ => 0)
        (runWriter id 1 [recC4, recC4, recC4])).1 .RawTags = [2, 1] ∧
    ([1, 1, 1].get? 0 ≠ ([2, 1] : List Nat).get? 0 ∧
      (0 : Nat) < 3 - 1 ∧ (0 : Nat) < 2 - 1) :=
  ⟨c4_cigar_log, c4_tags_log, by decide⟩

/-! ## The footer never carries statistics (claim C10) -/

theorem WState_mk_fileMeta (a : Fields → FieldBuf) (b : Compressor)
    (c : Fields → FieldMeta) (d : SinkState) :
    (WState.mk a b c d).fileMeta = c := rfl

theorem mem_setPad {α : Type} (l : List α) (i : Nat) (d x y : α)
    (hy : y ∈ setPad l i d x) : y ∈ l ∨ y = d ∨ y = x := by
  unfold setPad at hy
  by_cases hc : l.length ≤ i
  · rw [if_pos hc] at hy
    rcases List.mem_or_eq_of_mem_set hy with h | h
    · rcases List.mem_append.mp h with h | h
      · exact Or.inl h
      · exact Or.inr (Or.inl (List.eq_of_mem_replicate h))
    · exact Or.inr (Or.inr h)
  · rw [if_neg hc] at hy
    rcases List.mem_or_eq_of_mem_set hy with h | h
    · exact Or.inl h
    · exact Or.inr (Or.inr h)

theorem writeData_meta_none (s : WState) (t : CompressTask)
    (h : ∀ f : Fields, ∀ m ∈ (s.fileMeta f).blocks,
      m.min_value = none ∧ m.max_value = none) :
    ∀ f : Fields, ∀ m ∈ ((writeDataAndUpdateMeta s t).fileMeta f).blocks,
      m.min_value = none ∧ m.max_value = none := by
  intro f m hm
  simp only [writeDataAndUpdateMeta] at hm
  by_cases hf : f = t.field
  · subst hf
    rw [Function.update_same] at hm
    rcases mem_setPad _ _ _ _ _ hm with h1 | h1 | h1
    · exact h _ m h1
    · subst h1; exact ⟨rfl, rfl⟩
    · subst h1; exact ⟨rfl, rfl⟩
  · rw [Function.update_noteq hf] at hm
    exact h f m hm

theorem flushF_meta_none (compress : List Nat → List Nat) (s : WState)
    (g : Fields)
    (h : ∀ f : Fields, ∀ m ∈ (s.fileMeta f).blocks,
      m.min_value = none ∧ m.max_value = none) :
    ∀ f : Fields, ∀ m ∈ ((flushF compress s g).fileMeta f).blocks,
      m.min_value = none ∧ m.max_value = none := by
  intro f m hm
  simp only [flushF] at hm
  by_cases hni : (s.bufs g).numItems = 0
  · rw [if_pos hni] at hm; exact h f m hm
  · rw [if_neg hni] at hm
    by_cases htc : (getComprBlock compress s.compressor).1.uncompr_size ≠ 0
    · rw [if_pos htc] at hm
      exact writeData_meta_none _ _ h f m hm
    · rw [if_neg htc] at hm
      exact h f m hm

theorem updateFieldBuf_meta_none (compress : List Nat → List Nat) (s : WState)
    (g : Fields) (data : List Nat)
    (h : ∀ f : Fields, ∀ m ∈ (s.fileMeta f).blocks,
      m.min_value = none ∧ m.max_value = none) :
    ∀ f : Fields, ∀ m ∈ ((updateFieldBuf compress s g data).fileMeta f).blocks,
      m.min_value = none ∧ m.max_value = none := by
  unfold updateFieldBuf
  by_cases hcond : 0 < (s.bufs g).offset ∧
      SIZE_LIMIT < (s.bufs g).offset + data.length <;>
    simp only [hcond, true_and, and_true, if_true, if_false]
  · exact flushF_meta_none compress s g h
  · exact h

theorem pushRecord_meta_none (compress : List Nat → List Nat) (s : WState)
    (r : List Nat)
    (h : ∀ f : Fields, ∀ m ∈ (s.fileMeta f).blocks,
      m.min_value = none ∧ m.max_value = none) :
    ∀ f : Fields, ∀ m ∈ ((pushRecord compress s r).fileMeta f).blocks,
      m.min_value = none ∧ m.max_value = none := by
  simp only [pushRecord]
  iterate 21 apply updateFieldBuf_meta_none
  exact h

theorem foldl_push_meta_none (compress : List Nat → List Nat) :
    ∀ (recs : List (List Nat)) (s : WState),
      (∀ f : Fields, ∀ m ∈ (s.fileMeta f).blocks,
        m.min_value = none ∧ m.max_value = none) →
      ∀ f : Fields,
        ∀ m ∈ ((recs.foldl (pushRecord compress) s).fileMeta f).blocks,
          m.min_value = none ∧ m.max_value = none := by
  intro recs
  induction recs with
  | nil => intro s h; exact h
  | cons r rest ih =>
    intro s h
    rw [List.foldl_cons]
    exact ih _ (pushRecord_meta_none compress s r h)

theorem foldl_flush_meta_none (compress : List Nat → List Nat) :
    ∀ (l : List Fields) (s : WState),
      (∀ f : Fields, ∀ m ∈ (s.fileMeta f).blocks,
        m.min_value = none ∧ m.max_value = none) →
      ∀ f : Fields,
        ∀ m ∈ ((l.foldl (flushF compress) s).fileMeta f).blocks,
          m.min_value = none ∧ m.max_value = none := by
  intro l
  induction l with
  | nil => intro s h; exact h
  | cons a rest ih =>
    intro s h
    rw [List.foldl_cons]
    exact ih _ (flushF_meta_none compress s a h)

theorem foldl_writeData_meta_none :
    ∀ (l : List CompressTask) (s : WState),
      (∀ f : Fields, ∀ m ∈ (s.fileMeta f).blocks,
        m.min_value = none ∧ m.max_value = none) →
      ∀ f : Fields,
        ∀ m ∈ ((l.foldl writeDataAndUpdateMeta s).fileMeta f).blocks,
          m.min_value = none ∧ m.max_value = none := by
  intro l
  induction l with
  | nil => intro s h; exact h
  | cons t rest ih =>
    intro s h
    rw [List.foldl_cons]
    exact ih _ (writeData_meta_none s t h)

/-- Claim C10, confirmed.  Every `BlockMeta` recorded in the footer of
any writer run has `min_value = None` and `max_value = None`:
`generate_meta` stores `None` unconditionally (and the padding default
is also statistics-free), so no file produced by this writer carries
per-block statistics, whatever records are pushed. -/
theorem c10_no_stats (compress : List Nat → List Nat)
    (encode : (Fields → FieldMeta) → List Nat) (crc : List Nat → Nat)
    (threadNum : Nat) (recs : List (List Nat)) (f : Fields)
    (m : BlockMeta (List Nat))
    (hm : m ∈ ((finishW compress encode crc
      (runWriter compress threadNum recs)).1.fileMeta f).blocks) :
    m.min_value = none ∧ m.max_value = none := by
  have hinit : ∀ f : Fields, ∀ m ∈ ((initWState threadNum).fileMeta f).blocks,
      m.min_value = none ∧ m.max_value = none := by
    intro f m hm
    exact absurd hm (List.not_mem_nil m)
  have hrun := foldl_push_meta_none compress recs (initWState threadNum) hinit
  have hflush := foldl_flush_meta_none compress allFields
    (runWriter compress threadNum recs) hrun
  simp only [finishW, finishS2, finishS1] at hm
  refine foldl_writeData_meta_none _ _ ?_ f m hm
  intro g m' hm'
  rw [WState_mk_fileMeta] at hm'
  exact hflush g m' hm'

/-- Witness for `c10_no_stats`: the single `RefID` block of a
one-record run carries no statistics. -/
theorem c10_no_stats_witness :
    (((finishW id (fun _ => []) (fun _ => 0)
        (runWriter id 1 [sampleRecord])).1.fileMeta .RefID).blocks.headD
      ⟨0, 0, none, none⟩).min_value = none ∧
    (((finishW id (fun _ => []) (fun _ => 0)
        (runWriter id 1 [sampleRecord])).1.fileMeta .RefID).blocks.headD
      ⟨0, 0, none, none⟩).max_value = none :=
  c10_no_stats id (fun _ => []) (fun _ => 0) 1 [sampleRecord] .RefID _
    (by set_option maxRecDepth 100000 in decide)

/-! ## Layout of `Writer::finish` (claim C8) -/

theorem WState_mk_sink (a : Fields → FieldBuf) (b : Compressor)
    (c : Fields → FieldMeta) (d : SinkState) :
    (WState.mk a b c d).sink = d := rfl

theorem sinkWrite_pos (sk : SinkState) (b : List Nat) :
    (sinkWrite sk b).pos = sk.pos + b.length := rfl

theorem sinkWrite_file_of_le (sk : SinkState) (b : List Nat)
    (h : sk.file.length ≤ sk.pos) :
    (sinkWrite sk b).file =
      sk.file ++ List.replicate (sk.pos - sk.file.length) 0 ++ b := by
  simp only [sinkWrite]
  by_cases hlt : sk.file.length < sk.pos
  · rw [if_pos hlt]
    have hl : (sk.file ++ List.replicate (sk.pos - sk.file.length) 0).length
        = sk.pos := by
      rw [List.length_append, List.length_replicate]; omega
    rw [List.take_of_length_le (le_of_eq hl),
      List.drop_eq_nil_of_le (by rw [hl]; exact Nat.le_add_right _ _),
      List.append_nil]
  · have he : sk.file.length = sk.pos := le_antisymm h (le_of_not_lt hlt)
    have hz : sk.pos - sk.file.length = 0 := by omega
    rw [if_neg hlt, List.take_of_length_le (le_of_eq he),
      List.drop_eq_nil_of_le (by omega), List.append_nil, hz,
      List.replicate_zero, List.append_nil]

theorem sinkWrite_length_of_le (sk : SinkState) (b : List Nat)
    (h : sk.file.length ≤ sk.pos) :
    (sinkWrite sk b).file.length = sk.pos + b.length := by
  rw [sinkWrite_file_of_le sk b h, List.length_append, List.length_append,
    List.length_replicate]
  omega

theorem sinkWrite_at_zero (f : List Nat) (b : List Nat) :
    (sinkWrite ⟨f, 0⟩ b).file = b ++ f.drop b.length := by
  simp only [sinkWrite]
  rw [if_neg (Nat.not_lt_zero _), List.take_zero, List.nil_append,
    Nat.zero_add]

theorem writeData_sink (s : WState) (t : CompressTask) :
    (writeDataAndUpdateMeta s t).sink = sinkWrite s.sink t.buf := rfl

theorem writeData_compressor (s : WState) (t : CompressTask) :
    (writeDataAndUpdateMeta s t).compressor = s.compressor := rfl

theorem foldl_writeData_compressor :
    ∀ (l : List CompressTask) (s : WState),
      (l.foldl writeDataAndUpdateMeta s).compressor = s.compressor := by
  intro l
  induction l with
  | nil => intro s; rfl
  | cons t rest ih =>
    intro s
    rw [List.foldl_cons, ih, writeData_compressor]

theorem flushF_sink_cases (compress : List Nat → List Nat) (s : WState)
    (g : Fields) :
    (flushF compress s g).sink = s.sink ∨
      ∃ b, (flushF compress s g).sink = sinkWrite s.sink b := by
  simp only [flushF]
  by_cases hni : (s.bufs g).numItems = 0
  · rw [if_pos hni]; exact Or.inl rfl
  · rw [if_neg hni]
    by_cases htc : (getComprBlock compress s.compressor).1.uncompr_size ≠ 0
    · rw [if_pos htc]
      refine Or.inr ⟨(getComprBlock compress s.compressor).1.buf, ?_⟩
      rw [writeData_sink, WState_mk_sink]
    · rw [if_neg htc]
      exact Or.inl rfl

theorem foldl_flushF_sink_inv (compress : List Nat → List Nat) :
    ∀ (l : List Fields) (s : WState),
      s.sink.file.length ≤ s.sink.pos →
      (l.foldl (flushF compress) s).sink.file.length ≤
          (l.foldl (flushF compress) s).sink.pos ∧
        s.sink.pos ≤ (l.foldl (flushF compress) s).sink.pos := by
  intro l
  induction l with
  | nil => intro s h; exact ⟨h, le_refl _⟩
  | cons a rest ih =>
    intro s h
    rw [List.foldl_cons]
    have hstep : (flushF compress s a).sink.file.length ≤
        (flushF compress s a).sink.pos ∧
        s.sink.pos ≤ (flushF compress s a).sink.pos := by
      rcases flushF_sink_cases compress s a with hc | ⟨b, hc⟩
      · rw [hc]; exact ⟨h, le_refl _⟩
      · rw [hc, sinkWrite_length_of_le _ _ h, sinkWrite_pos]
        exact ⟨le_refl _, Nat.le_add_right _ _⟩
    obtain ⟨h1, h2⟩ := ih (flushF compress s a) hstep.1
    exact ⟨h1, le_trans hstep.2 h2⟩

theorem foldl_writeData_sink_inv :
    ∀ (l : List CompressTask) (s : WState),
      s.sink.file.length ≤ s.sink.pos →
      (l.foldl writeDataAndUpdateMeta s).sink.file.length ≤
          (l.foldl writeDataAndUpdateMeta s).sink.pos ∧
        s.sink.pos ≤ (l.foldl writeDataAndUpdateMeta s).sink.pos := by
  intro l
  induction l with
  | nil => intro s h; exact ⟨h, le_refl _⟩
  | cons t rest ih =>
    intro s h
    rw [List.foldl_cons]
    have hstep : (writeDataAndUpdateMeta s t).sink.file.length ≤
        (writeDataAndUpdateMeta s t).sink.pos ∧
        s.sink.pos ≤ (writeDataAndUpdateMeta s t).sink.pos := by
      rw [writeData_sink, sinkWrite_length_of_le _ _ h, sinkWrite_pos]
      exact ⟨le_refl _, Nat.le_add_right _ _⟩
    obtain ⟨h1, h2⟩ := ih (writeDataAndUpdateMeta s t) hstep.1
    exact ⟨h1, le_trans hstep.2 h2⟩

theorem finishS1_sink_inv (compress : List Nat → List Nat) (s : WState)
    (h : s.sink.file.length ≤ s.sink.pos) :
    (finishS1 compress s).sink.file.length ≤ (finishS1 compress s).sink.pos ∧
      s.sink.pos ≤ (finishS1 compress s).sink.pos := by
  unfold finishS1
  exact foldl_flushF_sink_inv compress allFields s h

theorem finishS2_sink_inv (compress : List Nat → List Nat) (s : WState)
    (h : s.sink.file.length ≤ s.sink.pos) :
    (finishS2 compress s).sink.file.length ≤ (finishS2 compress s).sink.pos ∧
      s.sink.pos ≤ (finishS2 compress s).sink.pos := by
  have h1 := finishS1_sink_inv compress s h
  obtain ⟨t, ht⟩ : ∃ t, finishS1 compress s = t := ⟨_, rfl⟩
  rw [ht] at h1
  unfold finishS2
  rw [ht]
  have hb : ({ t with compressor := { t.compressor with pending := [] }
    } : WState).sink = t.sink := rfl
  have h2 := foldl_writeData_sink_inv
    (t.compressor.pending.map
      (fun u => { u with buf := compress (u.buf.take u.uncompr_size) }))
    { t with compressor := { t.compressor with pending := [] } }
    (by rw [hb]; exact h1.1)
  rw [hb] at h2
  exact ⟨h2.1, le_trans h1.2 h2.2⟩

theorem finishS2_compressor_pending (compress : List Nat → List Nat)
    (s : WState) :
    (finishS2 compress s).compressor.pending = [] := by
  unfold finishS2
  rw [foldl_writeData_compressor]

theorem fileInfoBytes_length (a b c d : Nat) :
    (fileInfoBytes a b c d).length = FILE_INFO_SIZE := rfl

theorem flushSelf_numItems (fb : FieldBuf) : (flushSelf fb).numItems = 0 := by
  unfold flushSelf
  by_cases h : fb.numItems = 0
  · rw [if_pos h]; exact h
  · rw [if_neg h]

theorem finishW_snd (compress : List Nat → List Nat)
    (encode : (Fields → FieldMeta) → List Nat) (crc : List Nat → Nat)
    (s : WState) :
    (finishW compress encode crc s).2 =
      (finishS2 compress s).sink.pos +
        (encode (finishS2 compress s).fileMeta).length := rfl

theorem finishW_fst_sink (compress : List Nat → List Nat)
    (encode : (Fields → FieldMeta) → List Nat) (crc : List Nat → Nat)
    (s : WState) :
    (finishW compress encode crc s).1.sink =
      sinkWrite
        ⟨(sinkWrite (finishS2 compress s).sink
            (encode (finishS2 compress s).fileMeta)).file, 0⟩
        (fileInfoBytes 1 0 (finishS2 compress s).sink.pos
          (crc (encode (finishS2 compress s).fileMeta))) := rfl

theorem finishW_fst_compressor (compress : List Nat → List Nat)
    (encode : (Fields → FieldMeta) → List Nat) (crc : List Nat → Nat)
    (s : WState) :
    (finishW compress encode crc s).1.compressor =
      (finishS2 compress s).compressor := by
  simp only [finishW]

/-- Claim C8, confirmed.  On any writer state whose sink cursor sits at
or past both the end of the written file and the reserved preamble
(true of every state the writer ever reaches), `finish` flushes every
field, drains the pool writing each drained block and recording its
metadata (the state `finishS2`), takes the seek position reached as
`meta_start`, writes the serialised `FileMeta` there, CRCs exactly
those bytes, rewinds to offset 0, writes the `FileInfo` preamble with
version `[1,0]`, `meta_start` and that CRC, and returns the total
bytes written — the final file size.  Afterwards every per-field item
counter is zero and the pool is empty. -/
theorem c8_finish_layout (compress : List Nat → List Nat)
    (encode : (Fields → FieldMeta) → List Nat) (crc : List Nat → Nat)
    (s : WState)
    (hlen : s.sink.file.length ≤ s.sink.pos)
    (hfi : FILE_INFO_SIZE ≤ s.sink.pos) :
    (finishW compress encode crc s).2 =
        (finishS2 compress s).sink.pos +
          (encode (finishS2 compress s).fileMeta).length ∧
    (finishW compress encode crc s).1.sink.file.length =
        (finishW compress encode crc s).2 ∧
    (finishW compress encode crc s).1.sink.file =
        fileInfoBytes 1 0 (finishS2 compress s).sink.pos
            (crc (encode (finishS2 compress s).fileMeta)) ++
          ((finishS2 compress s).sink.file ++
            List.replicate ((finishS2 compress s).sink.pos -
              (finishS2 compress s).sink.file.length) 0 ++
            encode (finishS2 compress s).fileMeta).drop FILE_INFO_SIZE ∧
    (finishW compress encode crc s).1.sink.file.drop
        (finishS2 compress s).sink.pos =
      encode (finishS2 compress s).fileMeta ∧
    (∀ f, ((finishW compress encode crc s).1.bufs f).numItems = 0) ∧
    (finishW compress encode crc s).1.compressor.pending = [] := by
  have hinv2 := finishS2_sink_inv compress s hlen
  have hmS : FILE_INFO_SIZE ≤ (finishS2 compress s).sink.pos :=
    le_trans hfi hinv2.2
  have h3file : (sinkWrite (finishS2 compress s).sink
      (encode (finishS2 compress s).fileMeta)).file =
      (finishS2 compress s).sink.file ++
        List.replicate ((finishS2 compress s).sink.pos -
          (finishS2 compress s).sink.file.length) 0 ++
        encode (finishS2 compress s).fileMeta :=
    sinkWrite_file_of_le _ _ hinv2.1
  have hresfile : (finishW compress encode crc s).1.sink.file =
      fileInfoBytes 1 0 (finishS2 compress s).sink.pos
          (crc (encode (finishS2 compress s).fileMeta)) ++
        ((finishS2 compress s).sink.file ++
          List.replicate ((finishS2 compress s).sink.pos -
            (finishS2 compress s).sink.file.length) 0 ++
          encode (finishS2 compress s).fileMeta).drop FILE_INFO_SIZE := by
    rw [finishW_fst_sink, sinkWrite_at_zero, fileInfoBytes_length, h3file]
  have hpre : ((finishS2 compress s).sink.file ++
      List.replicate ((finishS2 compress s).sink.pos -
        (finishS2 compress s).sink.file.length) 0).length =
      (finishS2 compress s).sink.pos := by
    rw [List.length_append, List.length_replicate]
    omega
  have hbig : ((finishS2 compress s).sink.file ++
      List.replicate ((finishS2 compress s).sink.pos -
        (finishS2 compress s).sink.file.length) 0 ++
      encode (finishS2 compress s).fileMeta).length =
      (finishS2 compress s).sink.pos +
        (encode (finishS2 compress s).fileMeta).length := by
    rw [List.length_append, hpre]
  refine ⟨finishW_snd compress encode crc s, ?_, hresfile, ?_, ?_, ?_⟩
  · rw [hresfile, List.length_append, List.length_drop, hbig,
      finishW_snd, fileInfoBytes_length]
    simp only [FILE_INFO_SIZE] at hmS ⊢
    omega
  · have hfidrop : (fileInfoBytes 1 0 (finishS2 compress s).sink.pos
        (crc (encode (finishS2 compress s).fileMeta))).drop
          (finishS2 compress s).sink.pos = [] :=
      List.drop_eq_nil_of_le
        (le_of_eq_of_le (fileInfoBytes_length _ _ _ _) hmS)
    rw [hresfile, List.drop_append_eq_append_drop, hfidrop,
      List.nil_append, fileInfoBytes_length, List.drop_drop]
    rw [show FILE_INFO_SIZE +
          ((finishS2 compress s).sink.pos - FILE_INFO_SIZE) =
          (finishS2 compress s).sink.pos from by
        simp only [FILE_INFO_SIZE] at hmS ⊢; omega]
    rw [List.drop_append_eq_append_drop,
      List.drop_eq_nil_of_le (le_of_eq hpre), List.nil_append, hpre,
      Nat.sub_self, List.drop_zero]
  · intro f
    rw [finishW_bufs,
      foldl_flushF_mem compress f allFields (mem_allFields f)
        allFields_nodup s]
    exact flushSelf_numItems _
  · rw [finishW_fst_compressor, finishS2_compressor_pending]

/-- Witness for `c8_finish_layout` at a pristine one-thread writer:
after `finish` every per-field item counter is zero and the pool is
empty. -/
theorem c8_finish_layout_witness :
    (∀ f, ((finishW id (fun _ => []) (fun _ => 0)
        (initWState 1)).1.bufs f).numItems = 0) ∧
    (finishW id (fun _ => []) (fun _ => 0)
        (initWState 1)).1.compressor.pending = [] :=
  ⟨(c8_finish_layout id (fun _ => []) (fun _ => 0) (initWState 1)
      (by decide) (by decide)).2.2.2.2.1,
   (c8_finish_layout id (fun _ => []) (fun _ => 0) (initWState 1)
      (by decide) (by decide)).2.2.2.2.2⟩

end GbamSpec
